import Mathlib

/-!
Verification of the factorio-optimizer core: a shallow embedding of
`src/factorio.rs` (domain records Machine, Product, Recipe) and
`src/solver.rs` (Model, Solver, and the MILP that `Solver::solve` builds),
with `f64` rates embedded as rationals.  The external MILP backend
(`good_lp::default_solver`) is a black box per the specification; its
contract is modelled from the spec where a claim depends on it.
-/

namespace FactorioOpt

/-- Embeds `Product` from `src/factorio.rs`: a single `name` field.
Rust derives `PartialEq`/`Eq`/`Hash`, which on a single-field struct
coincide with comparison of the name. -/
structure Product where
  name : String
deriving DecidableEq

/-- Embeds `Machine` from `src/factorio.rs`: a `name` and a
`production_rate` (an `f64`, embedded as a rational). -/
structure Machine where
  name : String
  production_rate : ℚ
deriving DecidableEq

/-- Embeds `Recipe` from `src/factorio.rs`: a `name`, a `production_time`
in seconds, and the `usage` / `production` maps (HashMap<Product, f64>,
embedded as association lists with first-match lookup). -/
structure Recipe where
  name : String
  production_time : ℚ
  usage : List (Product × ℚ)
  production : List (Product × ℚ)
deriving DecidableEq

/-- First-match lookup in an association list: the embedding of
`HashMap<Product, f64>::get` on a map represented as a key-value list
without duplicate keys. -/
def assocLookup (p : Product) : List (Product × ℚ) → Option ℚ
  | [] => none
  | c :: rest => if c.1 = p then some c.2 else assocLookup p rest

/-- Embeds `Recipe::usage_of`: `self.usage.get(product).copied()`. -/
def Recipe.usage_of (r : Recipe) (p : Product) : Option ℚ :=
  assocLookup p r.usage

/-- Embeds `Recipe::production_of`: `self.production.get(product).copied()`. -/
def Recipe.production_of (r : Recipe) (p : Product) : Option ℚ :=
  assocLookup p r.production

/-- Embeds `impl PartialEq for Machine` (src/factorio.rs lines 34-38):
equality compares only the `name` field. -/
def Machine.beqRust (m1 m2 : Machine) : Bool :=
  m1.name == m2.name

/-- Embeds `impl PartialEq for Recipe` (src/factorio.rs lines 107-111):
equality compares only the `name` field. -/
def Recipe.beqRust (r1 r2 : Recipe) : Bool :=
  r1.name == r2.name

/-- Embeds `impl Hash for Machine` (src/factorio.rs lines 28-32): the
hasher is fed only the `name` field, so for any hash function on strings
the hash of a machine is the hash of its name. -/
def Machine.hashWith (h : String → Nat) (m : Machine) : Nat :=
  h m.name

/-- Embeds `impl Hash for Recipe` (src/factorio.rs lines 101-105): the
hasher is fed only the `name` field. -/
def Recipe.hashWith (h : String → Nat) (r : Recipe) : Nat :=
  h r.name

/-- Embeds `Model` from `src/solver.rs`: the declared universe of
recipes, products and machines. -/
structure Model where
  recipies : List Recipe
  products : List Product
  machines : List Machine
deriving DecidableEq

/-- Embeds `Model::new`. -/
def Model.new (recipies : List Recipe) (products : List Product)
    (machines : List Machine) : Model :=
  ⟨recipies, products, machines⟩

/-- Embeds `Solver` from `src/solver.rs`: a model plus the mutable
`production_constraints: HashMap<Product, f64>`, embedded as an
association list kept duplicate-free by `insertConstraint`. -/
structure Solver where
  model : Model
  production_constraints : List (Product × ℚ)
deriving DecidableEq

/-- Embeds `Solver::new`: the registry starts empty. -/
def Solver.new (m : Model) : Solver :=
  ⟨m, []⟩

/-- Insert-or-overwrite on the association list, the embedding of
`HashMap::insert`: an existing key keeps its position and gets the new
value, a fresh key is appended. -/
def insertConstraint (p : Product) (v : ℚ) :
    List (Product × ℚ) → List (Product × ℚ)
  | [] => [(p, v)]
  | c :: rest =>
    if c.1 = p then (p, v) :: rest else c :: insertConstraint p v rest

/-- Embeds `Solver::add_production_constraint` (src/solver.rs lines
60-65): insert the mapping only when the product is contained in the
model's product list, otherwise do nothing. -/
def Solver.add_production_constraint (s : Solver) (p : Product)
    (amount_per_minute : ℚ) : Solver :=
  if p ∈ s.model.products then
    { s with production_constraints :=
        insertConstraint p amount_per_minute s.production_constraints }
  else s

/-!
The program `Solver::solve` (src/solver.rs lines 67-185) builds.

Decision variables: one integer variable `count[m,r] >= 0` for every pair
of the cartesian product of machines and recipes (line 69-82), and one
continuous variable `overflow[p] >= 0` for every product of the model
(lines 84-92).  An assignment gives every count variable a natural number
(capturing `integer().min(0)`) and every overflow variable a rational;
the lower bound on overflow is part of program satisfaction.
-/

/-- An assignment of values to the decision variables: `count` is the
value of the integer variable `machines-m-r` and `overflow p` the value
of the continuous variable `p-overflow`. -/
structure Assignment where
  count : Machine → Recipe → ℕ
  overflow : Product → ℚ

/-- One summand of the inner machine loop (src/solver.rs lines 112-117 /
135-140 / 165-170): `machine.production_rate() * rate *
(60.0 / recipe.production_time()) * count[machine, recipe]`. -/
def machineTerm (m : Machine) (r : Recipe) (rate : ℚ) (a : Assignment) : ℚ :=
  m.production_rate * rate * (60 / r.production_time) * (a.count m r : ℚ)

/-- The per-recipe production expression (src/solver.rs lines 105-121):
zero when `production_of` is absent, otherwise the sum of `machineTerm`
over all machines of the model. -/
def recipeProduction (machines : List Machine) (r : Recipe) (p : Product)
    (a : Assignment) : ℚ :=
  match r.production_of p with
  | none => 0
  | some rate => (machines.map (fun m => machineTerm m r rate a)).sum

/-- The per-recipe consumption expression (src/solver.rs lines 128-144):
zero when `usage_of` is absent, otherwise the sum of `machineTerm` over
all machines of the model. -/
def recipeConsumption (machines : List Machine) (r : Recipe) (p : Product)
    (a : Assignment) : ℚ :=
  match r.usage_of p with
  | none => 0
  | some rate => (machines.map (fun m => machineTerm m r rate a)).sum

/-- The `production_rate` expression of the balance constraint
(src/solver.rs lines 101-122): sum of `recipeProduction` over all
recipes of the model. -/
def productionRate (mo : Model) (p : Product) (a : Assignment) : ℚ :=
  (mo.recipies.map (fun r => recipeProduction mo.machines r p a)).sum

/-- The `consumption_rate` expression of the balance constraint
(src/solver.rs lines 124-145): sum of `recipeConsumption` over all
recipes of the model. -/
def consumptionRate (mo : Model) (p : Product) (a : Assignment) : ℚ :=
  (mo.recipies.map (fun r => recipeConsumption mo.machines r p a)).sum

/-- The `consumption_rate` expression of a target constraint
(src/solver.rs lines 156-173): here an absent `usage_of` entry is
`rate.unwrap_or(0.0)` rather than a skipped recipe. -/
def consumptionRateT (mo : Model) (p : Product) (a : Assignment) : ℚ :=
  (mo.recipies.map (fun r =>
    (mo.machines.map
      (fun m => machineTerm m r ((r.usage_of p).getD 0) a)).sum)).sum

/-- The `extra` expression (src/solver.rs lines 147-150 and 175-178):
`overflow.get(p)` yields the overflow variable when `p` is a product of
the model (the keys of the overflow map) and the constant 0 otherwise. -/
def extraExpr (mo : Model) (p : Product) (a : Assignment) : ℚ :=
  if p ∈ mo.products then a.overflow p else 0

/-- The linear program `solve` hands to the backend.  Each balance and
target constraint is tagged with the product whose loop iteration added
it; expressions are embedded as evaluation functions on assignments. -/
structure LinearProgram where
  countVars : List (Machine × Recipe)
  overflowVars : List Product
  balances : List (Product × (Assignment → ℚ) × (Assignment → ℚ))
  targets : List (Product × (Assignment → ℚ) × ℚ)
  objectiveFn : Assignment → ℚ

/-- Embeds the program construction of `Solver::solve` (src/solver.rs
lines 68-182): integer count variables over the cartesian product
machines x recipes, overflow variables over the product list, the
objective as the sum of all count variables, one equality
`production_rate - consumption_rate == extra` per product, and one
inequality `consumption_rate + extra >= target` per registered
constraint. -/
def Solver.buildProgram (s : Solver) : LinearProgram where
  countVars := s.model.machines.product s.model.recipies
  overflowVars := s.model.products
  balances := s.model.products.map (fun p =>
    (p, fun a => productionRate s.model p a - consumptionRate s.model p a,
     fun a => extraExpr s.model p a))
  targets := s.production_constraints.map (fun c =>
    (c.1, fun a => consumptionRateT s.model c.1 a + extraExpr s.model c.1 a,
     c.2))
  objectiveFn := fun a =>
    ((s.model.machines.product s.model.recipies).map
      (fun x => (a.count x.1 x.2 : ℚ))).sum

/-- An assignment satisfies the program when every balance equality
holds, every target inequality holds, and every overflow variable is at
its lower bound 0 or above.  Count variables are natural numbers by
type, capturing `integer().min(0)`. -/
def LinearProgram.SatisfiedBy (P : LinearProgram) (a : Assignment) : Prop :=
  (∀ c ∈ P.balances, c.2.1 a = c.2.2 a) ∧
  (∀ c ∈ P.targets, c.2.2 ≤ c.2.1 a) ∧
  (∀ p ∈ P.overflowVars, 0 ≤ a.overflow p)

/-- Satisfaction of the program built from a solver state. -/
def Solver.Satisfies (s : Solver) (a : Assignment) : Prop :=
  s.buildProgram.SatisfiedBy a

/-- The objective value of an assignment for the program built from a
solver state. -/
def Solver.objValue (s : Solver) (a : Assignment) : ℚ :=
  s.buildProgram.objectiveFn a

/-- Optimality of a value for the program built from `s`: some
satisfying assignment attains it and no satisfying assignment is
better. -/
def Solver.IsOptimal (s : Solver) (v : ℚ) : Prop :=
  (∃ a, s.Satisfies a ∧ s.objValue a = v) ∧
  ∀ a, s.Satisfies a → v ≤ s.objValue a

/-- Modelled from the spec: the external MILP backend (spec section 6)
is a black box that returns an optimal assignment when one exists and a
typed failure otherwise, and `solve` evaluates the objective at the
returned assignment.  `solveOk s v` states that `solve` returns
`Ok(v)`. -/
def Solver.solveOk (s : Solver) (v : ℚ) : Prop :=
  s.IsOptimal v

/-- Modelled from the spec: `solve` returns the `Err` variant exactly
when the backend reports a failure, i.e. when the program has no optimal
value (spec sections 6 and 7). -/
def Solver.solveErr (s : Solver) : Prop :=
  ¬ ∃ v, s.IsOptimal v

/-- The fixed coefficient of the variable `count[m,r]` on the production
side of a balance constraint: `m.production_rate * rate *
(60 / r.production_time)` when `r.production_of p` is `some rate`, and 0
when the entry is absent. -/
def unitProductionRate (m : Machine) (r : Recipe) (p : Product) : ℚ :=
  match r.production_of p with
  | none => 0
  | some rate => m.production_rate * rate * (60 / r.production_time)

/-- The fixed coefficient of the variable `count[m,r]` on the consumption
side of a balance constraint, from `r.usage_of p`. -/
def unitConsumptionRate (m : Machine) (r : Recipe) (p : Product) : ℚ :=
  match r.usage_of p with
  | none => 0
  | some rate => m.production_rate * rate * (60 / r.production_time)

/-- Replacing the value of one overflow variable in an assignment,
leaving every other variable unchanged. -/
def Assignment.setOverflow (a : Assignment) (p : Product) (x : ℚ) :
    Assignment :=
  ⟨a.count, fun q => if q = p then x else a.overflow q⟩

/-!
The concrete instance of `tests/integration_tests.rs`: one electric
mining drill with production rate 0.5, one product Coal, one recipe
producing 1 Coal per one-second cycle and consuming nothing, and a
registered constraint of 30 Coal per minute.
-/

/-- The product `Coal` of the integration test. -/
def coalProduct : Product := ⟨"Coal"⟩

/-- The machine `Electric mining drill` of the integration test, with
production rate 0.5. -/
def coalMachine : Machine := ⟨"Electric mining drill", 1/2⟩

/-- The recipe `Coal mining` of the integration test: one second per
cycle, empty usage, produces 1 Coal per cycle. -/
def coalRecipe : Recipe := ⟨"Coal mining", 1, [], [(coalProduct, 1)]⟩

/-- The model of the integration test. -/
def coalModel : Model := Model.new [coalRecipe] [coalProduct] [coalMachine]

/-- The coal model paired with an arbitrary constraint registry; used to
compare optima of the same model under different registries. -/
def coalSolverC (cs : List (Product × ℚ)) : Solver := ⟨coalModel, cs⟩

/-- The solver state of the integration test after registering the
constraint of 30 Coal per minute. -/
def coalSolver : Solver :=
  (Solver.new coalModel).add_production_constraint ⟨"Coal"⟩ 30

/-- A product touched by no recipe: its model has one product, no
recipes and no machines. -/
def lonelyProduct : Product := ⟨"Uranium"⟩

/-- A model whose only product appears in no recipe. -/
def lonelyModel : Model := Model.new [] [lonelyProduct] []

/-- The lonely model with a registered demand of 30 per minute for the
untouched product. -/
def lonelySolver : Solver :=
  (Solver.new lonelyModel).add_production_constraint lonelyProduct 30

/-- A product that occurs in a recipe's usage map but is absent from the
model's product list. -/
def ghostProduct : Product := ⟨"Iron ore"⟩

/-- A recipe consuming the ghost product. -/
def ghostRecipe : Recipe := ⟨"Iron smelting", 2, [(ghostProduct, 1)], []⟩

/-- A model whose product list is empty although its one recipe touches
the ghost product. -/
def ghostModel : Model := Model.new [ghostRecipe] [] []

/-- A solver over the ghost model with an empty registry. -/
def ghostSolver : Solver := Solver.new ghostModel

/-- Unfolding of program satisfaction for a solver state. -/
lemma satisfies_def (s : Solver) (a : Assignment) :
    s.Satisfies a ↔
      ((∀ c ∈ s.buildProgram.balances, c.2.1 a = c.2.2 a) ∧
        (∀ c ∈ s.buildProgram.targets, c.2.2 ≤ c.2.1 a) ∧
        (∀ p ∈ s.buildProgram.overflowVars, 0 ≤ a.overflow p)) :=
  Iff.rfl

/-- Counting entries of an association list by key equals counting the
key among the mapped-out keys. -/
lemma countP_key_eq {α : Type} (l : List (Product × α)) (p : Product) :
    l.countP (fun c => c.1 == p) = List.count p (l.map Prod.fst) := by
  rw [List.count, List.countP_map]
  rfl

/-- Looking up the key just inserted yields the inserted value. -/
lemma assocLookup_insert_self (p : Product) (v : ℚ)
    (l : List (Product × ℚ)) :
    assocLookup p (insertConstraint p v l) = some v := by
  induction l with
  | nil => simp [insertConstraint, assocLookup]
  | cons c rest ih =>
    by_cases h : c.1 = p
    · simp [insertConstraint, h, assocLookup]
    · simp [insertConstraint, h, assocLookup, ih]

/-- Looking up any other key is unaffected by an insert. -/
lemma assocLookup_insert_ne (p : Product) (v : ℚ)
    (l : List (Product × ℚ)) (q : Product) (hq : q ≠ p) :
    assocLookup q (insertConstraint p v l) = assocLookup q l := by
  induction l with
  | nil => simp [insertConstraint, assocLookup, Ne.symm hq]
  | cons c rest ih =>
    by_cases h : c.1 = p
    · simp [insertConstraint, h, assocLookup, Ne.symm hq]
    · simp [insertConstraint, h, assocLookup, ih]

/-- After an insert into a registry with duplicate-free keys, the
inserted key occurs exactly once. -/
lemma countP_insert_self (p : Product) (v : ℚ)
    (l : List (Product × ℚ)) (hnd : (l.map Prod.fst).Nodup) :
    (insertConstraint p v l).countP (fun c => c.1 == p) = 1 := by
  induction l with
  | nil => simp [insertConstraint]
  | cons c rest ih =>
    rw [List.map_cons, List.nodup_cons] at hnd
    by_cases h : c.1 = p
    · have hz : rest.countP (fun c => c.1 == p) = 0 := by
        rw [List.countP_eq_zero]
        intro d hd
        simp only [beq_iff_eq]
        intro hdp
        have hmem : d.1 ∈ rest.map Prod.fst :=
          List.mem_map_of_mem Prod.fst hd
        rw [hdp, ← h] at hmem
        exact hnd.1 hmem
      simp [insertConstraint, h, List.countP_cons, hz]
    · simp [insertConstraint, h, List.countP_cons, ih hnd.2]

/-- Summing a function over the cartesian product of two lists equals the
nested sum. -/
lemma sum_map_product {α β : Type} (l₁ : List α) (l₂ : List β)
    (f : α → β → ℚ) :
    ((l₁.product l₂).map (fun x => f x.1 x.2)).sum
      = (l₁.map (fun a => (l₂.map (fun b => f a b)).sum)).sum := by
  induction l₁ with
  | nil => simp [List.product]
  | cons a t ih =>
    simp_all [List.product, List.flatMap_cons, Function.comp_def]

/-- Nested sums over two lists commute. -/
lemma sum_map_swap {α β : Type} (l₁ : List α) (l₂ : List β)
    (f : α → β → ℚ) :
    (l₁.map (fun a => (l₂.map (fun b => f a b)).sum)).sum
      = (l₂.map (fun b => (l₁.map (fun a => f a b)).sum)).sum := by
  induction l₁ with
  | nil => simp
  | cons a t ih => simp [ih, List.sum_map_add]

/-- The per-recipe production expression is the sum over machines of the
unit production coefficient times the count variable. -/
lemma recipeProduction_eq (machines : List Machine) (r : Recipe)
    (p : Product) (a : Assignment) :
    recipeProduction machines r p a
      = (machines.map
          (fun m => unitProductionRate m r p * (a.count m r : ℚ))).sum := by
  unfold recipeProduction unitProductionRate
  cases h : r.production_of p with
  | none => simp
  | some rate => simp [machineTerm]

/-- The per-recipe consumption expression is the sum over machines of the
unit consumption coefficient times the count variable. -/
lemma recipeConsumption_eq (machines : List Machine) (r : Recipe)
    (p : Product) (a : Assignment) :
    recipeConsumption machines r p a
      = (machines.map
          (fun m => unitConsumptionRate m r p * (a.count m r : ℚ))).sum := by
  unfold recipeConsumption unitConsumptionRate
  cases h : r.usage_of p with
  | none => simp
  | some rate => simp [machineTerm]

/-- The production side of a balance constraint, written as a single sum
over the count variables of the cartesian product. -/
lemma productionRate_pairs (mo : Model) (p : Product) (a : Assignment) :
    productionRate mo p a
      = ((mo.machines.product mo.recipies).map
          (fun x => unitProductionRate x.1 x.2 p * (a.count x.1 x.2 : ℚ))).sum := by
  rw [sum_map_product mo.machines mo.recipies
    (fun m r => unitProductionRate m r p * (a.count m r : ℚ)), sum_map_swap]
  unfold productionRate
  exact congrArg _ (List.map_congr_left fun r _ =>
    recipeProduction_eq mo.machines r p a)

/-- The consumption side of a balance constraint, written as a single sum
over the count variables of the cartesian product. -/
lemma consumptionRate_pairs (mo : Model) (p : Product) (a : Assignment) :
    consumptionRate mo p a
      = ((mo.machines.product mo.recipies).map
          (fun x => unitConsumptionRate x.1 x.2 p * (a.count x.1 x.2 : ℚ))).sum := by
  rw [sum_map_product mo.machines mo.recipies
    (fun m r => unitConsumptionRate m r p * (a.count m r : ℚ)), sum_map_swap]
  unfold consumptionRate
  exact congrArg _ (List.map_congr_left fun r _ =>
    recipeConsumption_eq mo.machines r p a)

/-- The consumption expression of a target constraint, built with
`rate.unwrap_or(0.0)`, coincides with the consumption expression of the
balance constraints, built by skipping absent recipes. -/
lemma consumptionRateT_eq (mo : Model) (p : Product) (a : Assignment) :
    consumptionRateT mo p a = consumptionRate mo p a := by
  unfold consumptionRateT consumptionRate
  refine congrArg _ (List.map_congr_left fun r _ => ?_)
  unfold recipeConsumption
  cases h : r.usage_of p with
  | none => simp [h, machineTerm]
  | some rate => simp [h]

lemma coalSolver_eq : coalSolver = coalSolverC [(coalProduct, 30)] := by
  simp [coalSolver, Solver.add_production_constraint, Solver.new, coalModel,
    Model.new, coalSolverC, coalProduct, insertConstraint]

lemma coal_productionRate (a : Assignment) :
    productionRate coalModel coalProduct a
      = 30 * (a.count coalMachine coalRecipe : ℚ) := by
  simp only [productionRate, coalModel, Model.new, recipeProduction,
    Recipe.production_of, coalRecipe, coalProduct, assocLookup, machineTerm,
    coalMachine, List.map_cons, List.map_nil, List.sum_cons, List.sum_nil,
    if_pos rfl]
  norm_num

lemma coal_consumptionRate (a : Assignment) :
    consumptionRate coalModel coalProduct a = 0 := by
  simp [consumptionRate, coalModel, Model.new, recipeConsumption,
    Recipe.usage_of, coalRecipe, coalProduct, assocLookup]

lemma coal_consumptionRateT (a : Assignment) :
    consumptionRateT coalModel coalProduct a = 0 := by
  rw [consumptionRateT_eq]
  exact coal_consumptionRate a

lemma coal_extraExpr (a : Assignment) :
    extraExpr coalModel coalProduct a = a.overflow coalProduct := by
  simp [extraExpr, coalModel, Model.new]

lemma coal_balances (cs : List (Product × ℚ)) :
    (coalSolverC cs).buildProgram.balances
      = [(coalProduct,
          fun a => productionRate coalModel coalProduct a
            - consumptionRate coalModel coalProduct a,
          fun a => extraExpr coalModel coalProduct a)] := rfl

lemma coal_targets (cs : List (Product × ℚ)) :
    (coalSolverC cs).buildProgram.targets
      = cs.map (fun c =>
          (c.1, fun a => consumptionRateT coalModel c.1 a
            + extraExpr coalModel c.1 a, c.2)) := rfl

lemma coal_overflowVars (cs : List (Product × ℚ)) :
    (coalSolverC cs).buildProgram.overflowVars = [coalProduct] := rfl

lemma coal_satisfies_iff (cs : List (Product × ℚ)) (a : Assignment) :
    (coalSolverC cs).Satisfies a ↔
      (30 * (a.count coalMachine coalRecipe : ℚ) = a.overflow coalProduct
        ∧ (∀ c ∈ cs,
            c.2 ≤ consumptionRateT coalModel c.1 a + extraExpr coalModel c.1 a)
        ∧ 0 ≤ a.overflow coalProduct) := by
  unfold Solver.Satisfies LinearProgram.SatisfiedBy
  rw [coal_balances, coal_targets, coal_overflowVars]
  constructor
  · rintro ⟨hb, ht, ho⟩
    refine ⟨?_, ?_, ho coalProduct (List.mem_singleton.mpr rfl)⟩
    · have h := hb _ (List.mem_singleton.mpr rfl)
      simpa [coal_productionRate, coal_consumptionRate, coal_extraExpr]
        using h
    · intro c hc
      exact ht _ (List.mem_map_of_mem _ hc)
  · rintro ⟨hb, ht, ho⟩
    refine ⟨?_, ?_, ?_⟩
    · intro c hc
      rw [List.mem_singleton] at hc
      subst hc
      simpa [coal_productionRate, coal_consumptionRate, coal_extraExpr]
        using hb
    · intro c hc
      obtain ⟨d, hd, rfl⟩ := List.mem_map.mp hc
      exact ht d hd
    · intro p hp
      rw [List.mem_singleton] at hp
      subst hp
      exact ho

lemma coal_objValue (cs : List (Product × ℚ)) (a : Assignment) :
    (coalSolverC cs).objValue a = (a.count coalMachine coalRecipe : ℚ) := by
  simp [Solver.objValue, Solver.buildProgram, coalSolverC, coalModel,
    Model.new, List.product]

/-- Optimum of the coal model with a single registered constraint
`(Coal, t)`: any natural number `n` with `t ≤ 30 * n` that no smaller
natural number satisfies is the optimal machine count. -/
lemma coal_opt (t : ℚ) (n : ℕ) (h1 : t ≤ 30 * n)
    (h2 : ∀ k : ℕ, k < n → ¬ t ≤ 30 * k) :
    (coalSolverC [(coalProduct, t)]).IsOptimal n := by
  constructor
  · refine ⟨⟨fun _ _ => n, fun _ => 30 * n⟩, ?_, ?_⟩
    · rw [coal_satisfies_iff]
      refine ⟨rfl, ?_, by positivity⟩
      intro c hc
      simp only [List.mem_singleton] at hc
      subst hc
      simpa [coal_consumptionRateT, coal_extraExpr] using h1
    · exact coal_objValue _ _
  · intro a ha
    rw [coal_satisfies_iff] at ha
    obtain ⟨hb, ht, ho⟩ := ha
    have htar := ht (coalProduct, t) (List.mem_singleton.mpr rfl)
    simp only [coal_consumptionRateT, coal_extraExpr, zero_add] at htar
    rw [coal_objValue]
    by_contra hlt
    push_neg at hlt
    have hcn : a.count coalMachine coalRecipe < n := by exact_mod_cast hlt
    exact h2 _ hcn (by calc t ≤ a.overflow coalProduct := htar
      _ = 30 * (a.count coalMachine coalRecipe : ℚ) := hb.symm)

/-- Optimum of the coal model with an empty constraint registry: zero
machines. -/
lemma coal_empty_opt : (coalSolverC []).IsOptimal 0 := by
  constructor
  · refine ⟨⟨fun _ _ => 0, fun _ => 0⟩, ?_, ?_⟩
    · rw [coal_satisfies_iff]
      exact ⟨by norm_num, by simp, le_refl 0⟩
    · simpa using coal_objValue [] ⟨fun _ _ => 0, fun _ => 0⟩
  · intro a ha
    rw [coal_objValue]
    positivity

/-- C6: for the integration-test instance — one machine of production
rate 0.5, one product Coal, one recipe of production time 1 producing
1 Coal per cycle and consuming nothing, and a registered constraint of
30 Coal per minute — `solve()` returns `Ok(1.0)`. -/
theorem coal_instance_solve : coalSolver.solveOk 1 := by
  unfold Solver.solveOk
  rw [coalSolver_eq]
  have h := coal_opt 30 1 (by norm_num)
    (by intro k hk; interval_cases k; norm_num)
  simpa using h

/-- C1: for every product `p` of the model's product list, the program
built by `solve()` has exactly one balance equality for `p`; its
satisfaction states that total per-minute production of `p` minus total
per-minute consumption equals `overflow[p]`; both sides are linear in
the count variables with the per-unit coefficients
`m.production_rate * rate * (60 / r.production_time)` taken from
`production_of` respectively `usage_of`, and a recipe with no entry for
`p` contributes coefficient 0. -/
theorem balance_constraints_spec (s : Solver) (p : Product)
    (hp : p ∈ s.model.products) (hnd : s.model.products.Nodup) :
    (s.buildProgram.balances.countP (fun c => c.1 == p) = 1) ∧
    (∀ a, s.Satisfies a →
      productionRate s.model p a - consumptionRate s.model p a
        = a.overflow p) ∧
    (∀ a, productionRate s.model p a
      = ((s.model.machines.product s.model.recipies).map
          (fun x => unitProductionRate x.1 x.2 p
            * (a.count x.1 x.2 : ℚ))).sum) ∧
    (∀ a, consumptionRate s.model p a
      = ((s.model.machines.product s.model.recipies).map
          (fun x => unitConsumptionRate x.1 x.2 p
            * (a.count x.1 x.2 : ℚ))).sum) ∧
    (∀ m r rate, r.production_of p = some rate →
      unitProductionRate m r p
        = m.production_rate * rate * (60 / r.production_time)) ∧
    (∀ m r, r.production_of p = none → unitProductionRate m r p = 0) ∧
    (∀ m r rate, r.usage_of p = some rate →
      unitConsumptionRate m r p
        = m.production_rate * rate * (60 / r.production_time)) ∧
    (∀ m r, r.usage_of p = none → unitConsumptionRate m r p = 0) := by
  refine ⟨?_, ?_, productionRate_pairs s.model p,
    consumptionRate_pairs s.model p, ?_, ?_, ?_, ?_⟩
  · rw [countP_key_eq]
    have hkeys : s.buildProgram.balances.map Prod.fst
        = s.model.products := by
      show (s.model.products.map _).map Prod.fst = s.model.products
      rw [List.map_map]
      exact List.map_id _
    rw [hkeys]
    exact List.count_eq_one_of_mem hnd hp
  · intro a ha
    have hc : (p,
        fun a => productionRate s.model p a - consumptionRate s.model p a,
        fun a => extraExpr s.model p a) ∈ s.buildProgram.balances :=
      List.mem_map_of_mem _ hp
    have h := ((satisfies_def s a).mp ha).1 _ hc
    simpa [extraExpr, hp] using h
  · intro m r rate h
    unfold unitProductionRate
    rw [h]
  · intro m r h
    unfold unitProductionRate
    rw [h]
  · intro m r rate h
    unfold unitConsumptionRate
    rw [h]
  · intro m r h
    unfold unitConsumptionRate
    rw [h]

/-- Witness for C1 at the coal instance. -/
theorem balance_constraints_spec_witness :
    (coalSolverC []).buildProgram.balances.countP
      (fun c => c.1 == coalProduct) = 1 :=
  (balance_constraints_spec (coalSolverC []) coalProduct
    (List.mem_singleton.mpr rfl) (List.nodup_singleton _)).1

/-- C3: the program has one integer count variable with lower bound 0
per pair of the cartesian product machines x recipes, one continuous
overflow variable with lower bound 0 per product of the model, and the
minimized objective is the unweighted sum of the count variables.
Integrality and the lower bound of the count variables are captured by
their values ranging over the natural numbers. -/
theorem decision_variables_spec (s : Solver) :
    (s.buildProgram.countVars
      = s.model.machines.product s.model.recipies) ∧
    (s.buildProgram.overflowVars = s.model.products) ∧
    (∀ a, s.objValue a
      = (s.buildProgram.countVars.map
          (fun x => (a.count x.1 x.2 : ℚ))).sum) ∧
    (∀ (a : Assignment) (x : Machine × Recipe),
      (0:ℚ) ≤ (a.count x.1 x.2 : ℚ)
      ∧ ∃ n : ℕ, (a.count x.1 x.2 : ℚ) = (n : ℚ)) ∧
    (∀ a, s.Satisfies a → ∀ p ∈ s.model.products, 0 ≤ a.overflow p) := by
  refine ⟨rfl, rfl, fun a => rfl, ?_, ?_⟩
  · intro a x
    exact ⟨Nat.cast_nonneg _, _, rfl⟩
  · intro a ha p hp
    exact ((satisfies_def s a).mp ha).2.2 p hp

/-- Witness for C3 at the coal instance. -/
theorem decision_variables_spec_witness :
    coalSolver.buildProgram.overflowVars = coalModel.products :=
  (decision_variables_spec coalSolver).2.1

/-- C4: registering a constraint for a product of the model's product
list inserts or overwrites its rate so that exactly the most recent rate
is active (the registry keeps a single entry for the product, looked up
by `solve()`), while registering a product outside the list leaves the
solver state, hence the constraint mapping, completely unchanged; the
operation is total and signals no error in either case. -/
theorem register_spec (s : Solver) (p : Product) (t t2 : ℚ)
    (hnd : (s.production_constraints.map Prod.fst).Nodup) :
    (p ∈ s.model.products →
      assocLookup p
          (s.add_production_constraint p t).production_constraints
        = some t ∧
      (s.add_production_constraint p t).production_constraints.countP
          (fun c => c.1 == p) = 1 ∧
      assocLookup p
          ((s.add_production_constraint p t).add_production_constraint
            p t2).production_constraints
        = some t2 ∧
      (s.add_production_constraint p t).model = s.model ∧
      (∀ q, q ≠ p →
        assocLookup q
            (s.add_production_constraint p t).production_constraints
          = assocLookup q s.production_constraints)) ∧
    (p ∉ s.model.products → s.add_production_constraint p t = s) := by
  constructor
  · intro hp
    have hmodel : (s.add_production_constraint p t).model = s.model := by
      simp [Solver.add_production_constraint, hp]
    refine ⟨?_, ?_, ?_, hmodel, ?_⟩
    · simp [Solver.add_production_constraint, hp, assocLookup_insert_self]
    · simp [Solver.add_production_constraint, hp, countP_insert_self,
        hnd]
    · have hp2 : p ∈ (s.add_production_constraint p t).model.products := by
        rw [hmodel]; exact hp
      simp [Solver.add_production_constraint, hp, hp2,
        assocLookup_insert_self]
    · intro q hq
      simp [Solver.add_production_constraint, hp,
        assocLookup_insert_ne p t _ q hq]
  · intro hp
    simp [Solver.add_production_constraint, hp]

/-- Witness for C4 at the coal instance: Coal is in the product list and
a foreign product is not. -/
theorem register_spec_witness :
    assocLookup coalProduct
        ((Solver.new coalModel).add_production_constraint
          coalProduct 30).production_constraints = some 30 ∧
    (Solver.new coalModel).add_production_constraint lonelyProduct 30
      = Solver.new coalModel := by
  constructor
  · exact ((register_spec (Solver.new coalModel) coalProduct 30 40
      List.nodup_nil).1 (List.mem_singleton.mpr rfl)).1
  · exact (register_spec (Solver.new coalModel) lonelyProduct 30 40
      List.nodup_nil).2 (by decide)

/-- C2: for every product `p` with a registered constraint of value
`target`, the program contains the inequality
`consumption_rate + extra >= target` — the target binds per-minute
consumption plus overflow, not total production — and any satisfying
assignment obeys it; with `p` in the product list the `extra` term is
the overflow variable of `p`; a product with no registered constraint
gets no target inequality. -/
theorem target_constraints_spec (s : Solver) (p : Product) (t : ℚ)
    (h : (p, t) ∈ s.production_constraints) :
    ((p, fun a => consumptionRateT s.model p a + extraExpr s.model p a, t)
        ∈ s.buildProgram.targets) ∧
    (∀ a, s.Satisfies a →
      t ≤ consumptionRateT s.model p a + extraExpr s.model p a) ∧
    (p ∈ s.model.products →
      ∀ a, extraExpr s.model p a = a.overflow p) ∧
    (∀ q : Product, (∀ u, (q, u) ∉ s.production_constraints) →
      s.buildProgram.targets.countP (fun c => c.1 == q) = 0) := by
  refine ⟨List.mem_map_of_mem _ h, ?_, ?_, ?_⟩
  · intro a ha
    exact ((satisfies_def s a).mp ha).2.1 _ (List.mem_map_of_mem _ h)
  · intro hp a
    simp [extraExpr, hp]
  · intro q hq
    rw [List.countP_eq_zero]
    intro c hc
    obtain ⟨d, hd, rfl⟩ := List.mem_map.mp hc
    simp only [beq_iff_eq]
    intro hdq
    exact hq d.2 (by rw [← hdq]; exact hd)

/-- Witness for C2 at the coal instance. -/
theorem target_constraints_spec_witness :
    (coalProduct,
      fun a => consumptionRateT coalModel coalProduct a
        + extraExpr coalModel coalProduct a, (30:ℚ))
      ∈ (coalSolverC [(coalProduct, 30)]).buildProgram.targets :=
  (target_constraints_spec (coalSolverC [(coalProduct, 30)])
    coalProduct 30 (List.mem_singleton.mpr rfl)).1

/-- C5: a product of the model that appears in no recipe's usage or
production map but has a registered constraint with positive target
makes the program infeasible: the balance equation forces its overflow
to 0 while the target inequality demands overflow at least the target,
so `solve()` returns the backend's infeasible error and never a finite
objective value. -/
theorem untouched_product_infeasible (s : Solver) (p : Product) (t : ℚ)
    (hp : p ∈ s.model.products)
    (hreg : (p, t) ∈ s.production_constraints) (hpos : 0 < t)
    (hno : ∀ r ∈ s.model.recipies,
      r.usage_of p = none ∧ r.production_of p = none) :
    (¬ ∃ a, s.Satisfies a) ∧ s.solveErr ∧ (∀ v, ¬ s.solveOk v) := by
  have hinf : ¬ ∃ a, s.Satisfies a := by
    rintro ⟨a, ha⟩
    obtain ⟨hb, ht, ho⟩ := (satisfies_def s a).mp ha
    have hprod : productionRate s.model p a = 0 := by
      apply List.sum_eq_zero
      intro x hx
      obtain ⟨r, hr, rfl⟩ := List.mem_map.mp hx
      unfold recipeProduction
      rw [(hno r hr).2]
    have hcons : consumptionRate s.model p a = 0 := by
      apply List.sum_eq_zero
      intro x hx
      obtain ⟨r, hr, rfl⟩ := List.mem_map.mp hx
      unfold recipeConsumption
      rw [(hno r hr).1]
    have hover : a.overflow p = 0 := by
      have hbal := hb _ (List.mem_map_of_mem
        (fun p => (p,
          fun a => productionRate s.model p a - consumptionRate s.model p a,
          fun a => extraExpr s.model p a)) hp)
      simp only [extraExpr, hp, if_pos, hprod, hcons, sub_zero] at hbal
      simpa using hbal.symm
    have htar := ht _ (List.mem_map_of_mem
      (fun c => (c.1,
        fun a => consumptionRateT s.model c.1 a + extraExpr s.model c.1 a,
        c.2)) hreg)
    simp only [consumptionRateT_eq, hcons, extraExpr, hp, if_pos, hover,
      zero_add] at htar
    exact absurd (lt_of_lt_of_le hpos htar) (lt_irrefl 0)
  refine ⟨hinf, ?_, ?_⟩
  · rintro ⟨v, ⟨⟨a, ha, -⟩, -⟩⟩
    exact hinf ⟨a, ha⟩
  · rintro v ⟨⟨a, ha, -⟩, -⟩
    exact hinf ⟨a, ha⟩

/-- Witness for C5: the lonely model has one product, no recipes, and a
registered demand of 30 per minute. -/
theorem untouched_product_infeasible_witness :
    ¬ ∃ a, lonelySolver.Satisfies a :=
  (untouched_product_infeasible lonelySolver lonelyProduct 30
    (by decide) (by decide) (by norm_num)
    (by intro r hr; exact absurd hr (List.not_mem_nil r))).1

/-- C8: the embedded `PartialEq` of `Machine` and `Recipe` holds exactly
when the names agree, regardless of production rate, production time,
usage or production maps, and the embedded `Hash` of a machine or recipe
depends only on its name. -/
theorem identity_by_name :
    (∀ m1 m2 : Machine, Machine.beqRust m1 m2 = true ↔ m1.name = m2.name) ∧
    (∀ r1 r2 : Recipe, Recipe.beqRust r1 r2 = true ↔ r1.name = r2.name) ∧
    (∀ (h : String → Nat) (m1 m2 : Machine), m1.name = m2.name →
      Machine.hashWith h m1 = Machine.hashWith h m2) ∧
    (∀ (h : String → Nat) (r1 r2 : Recipe), r1.name = r2.name →
      Recipe.hashWith h r1 = Recipe.hashWith h r2) := by
  refine ⟨?_, ?_, ?_, ?_⟩
  · intro m1 m2
    simp [Machine.beqRust]
  · intro r1 r2
    simp [Recipe.beqRust]
  · intro h m1 m2 he
    unfold Machine.hashWith
    rw [he]
  · intro h r1 r2 he
    unfold Recipe.hashWith
    rw [he]

/-- Witness for C8: two machines and two recipes sharing a name but
differing in every other field compare equal and hash alike. -/
theorem identity_by_name_witness :
    Machine.beqRust ⟨"drill", 1⟩ ⟨"drill", 2⟩ = true ∧
    Recipe.beqRust ⟨"smelt", 1, [], []⟩
      ⟨"smelt", 2, [(coalProduct, 3)], []⟩ = true ∧
    Machine.hashWith String.length ⟨"drill", 1⟩
      = Machine.hashWith String.length ⟨"drill", 2⟩ :=
  ⟨(identity_by_name.1 _ _).mpr rfl,
   (identity_by_name.2.1 _ _).mpr rfl,
   identity_by_name.2.2.1 String.length _ _ rfl⟩

/-- C9: `solve()` never panics: every lookup of the count variable for a
pair iterated during constraint construction succeeds because the
variable list covers the full cartesian product, and the outcome of the
solve is always one of the two `Result` variants — an optimal value or
the propagated backend failure. -/
theorem solve_total_no_panic (s : Solver) :
    (∀ m ∈ s.model.machines, ∀ r ∈ s.model.recipies,
      (m, r) ∈ s.buildProgram.countVars) ∧
    (∃ o : Option ℚ, (∀ v, o = some v → s.solveOk v) ∧
      (o = none → s.solveErr)) := by
  constructor
  · intro m hm r hr
    show (m, r) ∈ s.model.machines.product s.model.recipies
    exact List.mem_product.mpr ⟨hm, hr⟩
  · by_cases h : ∃ v, s.IsOptimal v
    · obtain ⟨v, hv⟩ := h
      refine ⟨some v, ?_, fun h2 => Option.noConfusion h2⟩
      intro v2 hv2
      rw [Option.some_inj] at hv2
      exact hv2 ▸ hv
    · exact ⟨none, fun v2 hv2 => Option.noConfusion hv2, fun _ => h⟩

/-- Witness for C9 at the coal instance. -/
theorem solve_total_no_panic_witness :
    (coalMachine, coalRecipe) ∈ coalSolver.buildProgram.countVars :=
  (solve_total_no_panic coalSolver).1 coalMachine
    (by rw [coalSolver_eq]; exact List.mem_singleton.mpr rfl)
    coalRecipe (by rw [coalSolver_eq]; exact List.mem_singleton.mpr rfl)

/-- C10: a product absent from the model's product list — even one that
occurs in some recipe's usage or production map — gets no overflow
variable and no balance equation; with no registered constraint for it
either, no constraint of the program is tagged with it and its overflow
value is completely unconstrained: any satisfying assignment stays
satisfying under an arbitrary change of that overflow value. -/
theorem absent_product_unconstrained (s : Solver) (p : Product)
    (hp : p ∉ s.model.products)
    (_hocc : ∃ r ∈ s.model.recipies,
      (r.usage_of p).isSome ∨ (r.production_of p).isSome)
    (hreg : ∀ t, (p, t) ∉ s.production_constraints) :
    (p ∉ s.buildProgram.overflowVars) ∧
    (s.buildProgram.balances.countP (fun c => c.1 == p) = 0) ∧
    (s.buildProgram.targets.countP (fun c => c.1 == p) = 0) ∧
    (∀ a x, s.Satisfies a → s.Satisfies (a.setOverflow p x)) := by
  have hextra : ∀ (q : Product) (a : Assignment) (x : ℚ),
      extraExpr s.model q (a.setOverflow p x) = extraExpr s.model q a := by
    intro q a x
    unfold extraExpr
    by_cases hq : q ∈ s.model.products
    · have hqp : ¬ q = p := fun h2 => hp (h2 ▸ hq)
      simp [hq, Assignment.setOverflow, hqp]
    · simp [hq]
  refine ⟨hp, ?_, ?_, ?_⟩
  · rw [countP_key_eq]
    have hkeys : s.buildProgram.balances.map Prod.fst
        = s.model.products := by
      show (s.model.products.map _).map Prod.fst = s.model.products
      rw [List.map_map]
      exact List.map_id _
    rw [hkeys]
    exact List.count_eq_zero.mpr hp
  · rw [List.countP_eq_zero]
    intro c hc
    obtain ⟨d, hd, rfl⟩ := List.mem_map.mp hc
    simp only [beq_iff_eq]
    intro hdp
    exact hreg d.2 (by rw [← hdp]; exact hd)
  · intro a x ha
    obtain ⟨hb, ht, ho⟩ := (satisfies_def s a).mp ha
    refine (satisfies_def s _).mpr ⟨?_, ?_, ?_⟩
    · intro c hc
      obtain ⟨q, hq, rfl⟩ := List.mem_map.mp hc
      have h := hb _ (List.mem_map_of_mem _ hq)
      simpa [hextra] using h
    · intro c hc
      obtain ⟨d, hd, rfl⟩ := List.mem_map.mp hc
      have h := ht _ (List.mem_map_of_mem _ hd)
      simpa [hextra] using h
    · intro q hq
      have hqp : ¬ q = p := fun h2 => hp (h2 ▸ hq)
      have h := ho q hq
      simpa [Assignment.setOverflow, hqp] using h

/-- The balance constraints depend only on the model. -/
lemma balances_model (s s2 : Solver) (hm : s2.model = s.model) :
    s2.buildProgram.balances = s.buildProgram.balances := by
  unfold Solver.buildProgram
  rw [hm]

/-- The overflow variables depend only on the model. -/
lemma overflowVars_model (s s2 : Solver) (hm : s2.model = s.model) :
    s2.buildProgram.overflowVars = s.buildProgram.overflowVars := by
  unfold Solver.buildProgram
  rw [hm]

/-- The objective depends only on the model. -/
lemma objValue_model (s s2 : Solver) (hm : s2.model = s.model)
    (a : Assignment) : s2.objValue a = s.objValue a := by
  unfold Solver.objValue Solver.buildProgram
  rw [hm]

/-- Weakening targets preserves satisfaction: if every registered
constraint of `s2` has, for the same product, a counterpart in `s` with
a rate at least as large, then any assignment satisfying the program of
`s` satisfies the program of `s2` (both over the same model). -/
lemma satisfies_of_targets_le (s s2 : Solver) (hm : s2.model = s.model)
    (h : ∀ c ∈ s2.production_constraints,
      ∃ d ∈ s.production_constraints, d.1 = c.1 ∧ c.2 ≤ d.2)
    (a : Assignment) (ha : s.Satisfies a) : s2.Satisfies a := by
  obtain ⟨hb, ht, ho⟩ := (satisfies_def s a).mp ha
  refine (satisfies_def s2 a).mpr ⟨?_, ?_, ?_⟩
  · rw [balances_model s s2 hm]
    exact hb
  · intro c hc
    obtain ⟨d2, hd2, rfl⟩ := List.mem_map.mp hc
    obtain ⟨d, hd, hfst, hle⟩ := h d2 hd2
    have h2 := ht _ (List.mem_map_of_mem
      (fun c => (c.1,
        fun a => consumptionRateT s.model c.1 a + extraExpr s.model c.1 a,
        c.2)) hd)
    simp only at h2 ⊢
    rw [hm, ← hfst]
    exact le_trans hle h2
  · rw [overflowVars_model s s2 hm]
    exact ho

/-- Comparison of optima: with the same model and `s2`'s targets weaker
than `s`'s, the optimum of `s2` is at most the optimum of `s`. -/
lemma optimal_mono (s s2 : Solver) (hm : s2.model = s.model)
    (h : ∀ c ∈ s2.production_constraints,
      ∃ d ∈ s.production_constraints, d.1 = c.1 ∧ c.2 ≤ d.2)
    (v v2 : ℚ) (hv : s.IsOptimal v) (hv2 : s2.IsOptimal v2) : v2 ≤ v := by
  obtain ⟨⟨a, ha, hav⟩, -⟩ := hv
  obtain ⟨-, hmin⟩ := hv2
  have ha2 := satisfies_of_targets_le s s2 hm h a ha
  calc v2 ≤ s2.objValue a := hmin a ha2
    _ = s.objValue a := objValue_model s s2 hm a
    _ = v := hav

/-- C7: for a fixed model, replacing the rate of one registered product
by a strictly larger rate never decreases the optimal objective value,
and removing one registered constraint never increases it. -/
theorem objective_monotone (s1 s2 s3 : Solver) (k : ℕ)
    (hk : k < s1.production_constraints.length) (t2 : ℚ)
    (hm2 : s2.model = s1.model)
    (hc2 : s2.production_constraints
      = s1.production_constraints.set k
          ((s1.production_constraints.get ⟨k, hk⟩).1, t2))
    (ht : (s1.production_constraints.get ⟨k, hk⟩).2 < t2)
    (hm3 : s3.model = s1.model)
    (hc3 : s3.production_constraints
      = s1.production_constraints.eraseIdx k)
    (v1 v2 v3 : ℚ)
    (h1 : s1.IsOptimal v1) (h2 : s2.IsOptimal v2) (h3 : s3.IsOptimal v3) :
    v1 ≤ v2 ∧ v3 ≤ v1 := by
  constructor
  · apply optimal_mono s2 s1 hm2.symm ?_ v2 v1 h2 h1
    intro c hc
    obtain ⟨i, hi, hgi⟩ := List.mem_iff_getElem.mp hc
    by_cases hik : i = k
    · subst hik
      refine ⟨((s1.production_constraints.get ⟨i, hk⟩).1, t2), ?_, ?_, ?_⟩
      · rw [hc2]
        exact List.mem_set s1.production_constraints i hk _
      · simp only [List.get_eq_getElem]
        rw [hgi]
      · rw [← hgi]
        simp only [List.get_eq_getElem] at ht
        exact le_of_lt ht
    · refine ⟨c, ?_, rfl, le_refl _⟩
      rw [hc2]
      refine List.mem_iff_getElem.mpr ⟨i, ?_, ?_⟩
      · rw [List.length_set]
        exact hi
      · rw [List.getElem_set_ne (fun h2 => hik h2.symm)]
        exact hgi
  · apply optimal_mono s1 s3 hm3 ?_ v1 v3 h1 h3
    intro c hc
    rw [hc3] at hc
    exact ⟨c, List.Sublist.mem hc
      (List.eraseIdx_sublist s1.production_constraints k), rfl, le_refl _⟩

/-- Witness for C7: raising the coal target from 30 to 60 raises the
optimum from 1 to 2, and removing the constraint lowers it to 0. -/
theorem objective_monotone_witness : (1:ℚ) ≤ 2 ∧ (0:ℚ) ≤ 1 := by
  have h30 : (coalSolverC [(coalProduct, 30)]).IsOptimal 1 := by
    have h := coal_opt 30 1 (by norm_num)
      (by intro k hk; interval_cases k; norm_num)
    simpa using h
  have h60 : (coalSolverC [(coalProduct, 60)]).IsOptimal 2 := by
    have h := coal_opt 60 2 (by norm_num)
      (by intro k hk; interval_cases k <;> norm_num)
    simpa using h
  have h0 : (coalSolverC []).IsOptimal 0 := by
    simpa using coal_empty_opt
  exact objective_monotone (coalSolverC [(coalProduct, 30)])
    (coalSolverC [(coalProduct, 60)]) (coalSolverC []) 0
    (by show 0 < 1; norm_num) 60 rfl rfl
    (by show (30:ℚ) < 60; norm_num) rfl rfl 1 2 0 h30 h60 h0

/-- Witness for C10 at the ghost model: its recipe consumes the ghost
product, which is absent from the product list. -/
theorem absent_product_unconstrained_witness :
    ghostProduct ∉ ghostSolver.buildProgram.overflowVars :=
  (absent_product_unconstrained ghostSolver ghostProduct (by decide)
    ⟨ghostRecipe, by decide, by decide⟩
    (by intro t h; exact List.not_mem_nil _ h)).1

end FactorioOpt
